import Mathlib

set_option maxRecDepth 10000

/-!
Verification development for the libtdb TDB function parser/evaluator and
the parameter storage structures (src/libtdb/include/structure.hpp,
src/test/source/parsers/func_test.cpp).

Types and functions that appear in structure.hpp are translated directly.
The function-grammar parser, expression evaluator and the macro table are
not part of the provided sources (only their test suite is), so they are
modelled from the specification; their doc comments start with
"Modelled from the spec:".

Real numbers are modelled by ℚ (exact arithmetic).  The transcendental
primitives (natural logarithm, real-exponent power) are supplied as oracle
parameters, mirroring the external std::log / std::pow calls of the
original implementation.
-/

namespace Tdb

/-- Modelled from the spec: binary operator tag of an expression-tree node
(the four binary operators `+ - * /` of the arithmetic grammar). -/
inductive BinOp
  | add
  | sub
  | mul
  | div
deriving Repr, DecidableEq

/-- Modelled from the spec: tagged-variant expression-tree node
`Literal(value) | Variable(name) | BinaryOp(op, left, right) |
Power(base, exponent) | Log(argument)`.  The grammar only allows a signed
number literal as an exponent (`factor := atom ("**" signed_number)?`),
so the exponent is stored as a rational. -/
inductive Expr
  | Literal (value : ℚ)
  | Variable (name : String)
  | BinaryOp (op : BinOp) (left right : Expr)
  | Power (base : Expr) (exponent : ℚ)
  | Log (argument : Expr)
deriving Repr, DecidableEq

/-- Modelled from the spec: classification of a state-variable value as it
arrives from the condition lookup.  The numeric guard distinguishes NaN,
infinities and subnormal values from ordinary finite values; finite (and
subnormal) magnitudes are carried as rationals. -/
inductive NumVal
  | nan
  | posInf
  | negInf
  | subnormal (q : ℚ)
  | finite (q : ℚ)
deriving Repr, DecidableEq

/-- Modelled from the spec: the evaluation-time error kinds. -/
inductive EvalError
  | StateVariableOutOfRange (name : String) (value : ℚ) (low : ℚ) (high : Option ℚ)
  | InvalidStateVariableValue
  | UndefinedVariable (name : String)
  | DivisionByZero
  | LogarithmDomainError
deriving Repr, DecidableEq

/-- Modelled from the spec: the external numeric primitives used by the
evaluator (std::log and std::pow for non-integer exponents), supplied as
oracles because they are transcendental. -/
structure NumOps where
  log : ℚ → ℚ
  rpow : ℚ → ℚ → ℚ

/-- Modelled from the spec: recursive descent over the expression tree.
Literals return their value; variables resolve through the lookup
(`UndefinedVariable` if absent, `InvalidStateVariableValue` if the stored
value is not finite); binary nodes evaluate left child first (division by
exactly zero fails with `DivisionByZero`); power nodes use exact integer
powers for integer exponents (reciprocal semantics for negative ones) and
the external power oracle otherwise; logarithm nodes fail with
`LogarithmDomainError` on non-positive arguments. -/
def evalExpr (ops : NumOps) (lookup : String → Option NumVal) : Expr → Except EvalError ℚ
  | .Literal v => .ok v
  | .Variable n =>
      match lookup n with
      | none => .error (.UndefinedVariable n)
      | some (.finite q) => .ok q
      | some _ => .error .InvalidStateVariableValue
  | .BinaryOp op a b =>
      match evalExpr ops lookup a, evalExpr ops lookup b with
      | .ok x, .ok y =>
          match op with
          | .add => .ok (x + y)
          | .sub => .ok (x - y)
          | .mul => .ok (x * y)
          | .div => if y = 0 then .error .DivisionByZero else .ok (x / y)
      | .error e, _ => .error e
      | .ok _, .error e => .error e
  | .Power b e =>
      match evalExpr ops lookup b with
      | .error err => .error err
      | .ok x =>
          if e.den = 1 then
            if x = 0 ∧ e.num < 0 then .error .DivisionByZero
            else .ok (x ^ e.num)
          else .ok (ops.rpow x e)
  | .Log a =>
      match evalExpr ops lookup a with
      | .error err => .error err
      | .ok x => if x ≤ 0 then .error .LogarithmDomainError else .ok (ops.log x)

/-- Modelled from the spec: lexical token of the function grammar. -/
inductive Tok
  | num (q : ℚ)
  | ident (s : String)
  | plus
  | minus
  | star
  | slash
  | dstar
  | lparen
  | rparen
  | semi
  | comma
  | colon
  | bang
deriving Repr, DecidableEq

/-- Modelled from the spec: one `(lowLimit, highLimit, expressionTree)`
segment of a parsed piecewise function.  The high limit of a segment is the
low limit of the following one; the final segment's high limit is omitted
by the `;,,N` terminator and recorded as `none`. -/
structure FuncSegment where
  lowlimit : ℚ
  highlimit : Option ℚ
  expression : Expr
deriving Repr, DecidableEq

/-- Modelled from the spec: a parsed piecewise function — the ordered
segment list plus the trailing reference tag (kept as its token sequence). -/
structure PiecewiseFunc where
  segments : List FuncSegment
  reftag : List Tok
deriving Repr, DecidableEq

/-- Modelled from the spec: whether the half-open interval `[low, high)` of
a segment contains a value (a missing high limit is unbounded above). -/
def inRange (v : ℚ) (s : FuncSegment) : Bool :=
  decide (s.lowlimit ≤ v) &&
    (match s.highlimit with
     | none => true
     | some h => decide (v < h))

/-- Modelled from the spec: range selection — scan the segments in order
and select the first one whose half-open interval `[low, high)` contains
the queried value. -/
def selectSegment (v : ℚ) : List FuncSegment → Option FuncSegment
  | [] => none
  | s :: rest => if inRange v s then some s else selectSegment v rest

/-- Modelled from the spec: numeric guard — reject a state-variable input
that is infinite, NaN, subnormal, or exactly zero, with
`InvalidStateVariableValue`; otherwise return the finite value. -/
def numericGuard (v : NumVal) : Except EvalError ℚ :=
  match v with
  | .nan => .error .InvalidStateVariableValue
  | .posInf => .error .InvalidStateVariableValue
  | .negInf => .error .InvalidStateVariableValue
  | .subnormal _ => .error .InvalidStateVariableValue
  | .finite q => if q = 0 then .error .InvalidStateVariableValue else .ok q

/-- Low limit of the first segment (0 for an empty segment list). -/
def firstLow (pf : PiecewiseFunc) : ℚ :=
  match pf.segments with
  | [] => 0
  | s :: _ => s.lowlimit

/-- High limit of the final segment (`none` when omitted/unbounded). -/
def lastHigh (pf : PiecewiseFunc) : Option ℚ :=
  match pf.segments.getLast? with
  | none => none
  | some s => s.highlimit

/-- Low limit of the final segment (0 for an empty segment list). -/
def lastLow (pf : PiecewiseFunc) : ℚ :=
  match pf.segments.getLast? with
  | none => 0
  | some s => s.lowlimit

/-- Modelled from the spec: evaluate a parsed piecewise function against a
condition lookup.  The ranged state variable (conventionally `T`) is an
external convention and is passed explicitly.  Pipeline: resolve the ranged
variable (`UndefinedVariable` if absent), run the numeric guard, select the
segment whose `[low, high)` range contains the value
(`StateVariableOutOfRange` naming the variable, value and overall bounds if
none does), then evaluate that segment's expression tree. -/
def evaluate (ops : NumOps) (rangedVar : String) (pf : PiecewiseFunc)
    (lookup : String → Option NumVal) : Except EvalError ℚ :=
  match lookup rangedVar with
  | none => .error (.UndefinedVariable rangedVar)
  | some val =>
      match numericGuard val with
      | .error e => .error e
      | .ok q =>
          match selectSegment q pf.segments with
          | some seg => evalExpr ops lookup seg.expression
          | none => .error (.StateVariableOutOfRange rangedVar q (firstLow pf) (lastHigh pf))

/-- Modelled from the spec: parse/definition-time error kinds, including
the macro-table failures. -/
inductive ParseError
  | MalformedFunctionSyntax
  | InconsistentRangeBounds
  | UndefinedMacro (name : String)
  | CyclicMacroReference (name : String)
deriving Repr, DecidableEq

/-- Numeric value of a decimal digit character. -/
def digitVal (c : Char) : ℕ :=
  c.toNat - '0'.toNat

/-- Natural number denoted by a list of decimal digit characters. -/
def natOfDigits (l : List Char) : ℕ :=
  l.foldl (fun a c => 10 * a + digitVal c) 0

/-- Modelled from the spec: value of a mantissa word — decimal digits with
at most one decimal point (as in `298.15`, `1`, `.002623033`). -/
def mantissaToRat (s : List Char) : Option ℚ :=
  match s.span Char.isDigit with
  | (ip, []) => if ip.isEmpty then none else some (natOfDigits ip)
  | (ip, '.' :: fp) =>
      if fp.all Char.isDigit ∧ (ip.isEmpty = false ∨ fp.isEmpty = false) then
        some ((natOfDigits ip : ℚ) + (natOfDigits fp : ℚ) / (10 : ℚ) ^ fp.length)
      else none
  | _ => none

/-- Modelled from the spec: consume an exponent suffix (`E`/`e`, optional
sign, digits) of a numeric literal in exponential notation; returns the
exponent and the remaining characters, or `none` when no well-formed
exponent follows. -/
def lexExponent (cs : List Char) : Option (ℤ × List Char) :=
  match cs with
  | 'E' :: rest =>
      (match rest with
       | '+' :: ds =>
           match ds.span Char.isDigit with
           | ([], _) => none
           | (digits, rest2) => some ((natOfDigits digits : ℤ), rest2)
       | '-' :: ds =>
           match ds.span Char.isDigit with
           | ([], _) => none
           | (digits, rest2) => some (-(natOfDigits digits : ℤ), rest2)
       | ds =>
           match ds.span Char.isDigit with
           | ([], _) => none
           | (digits, rest2) => some ((natOfDigits digits : ℤ), rest2))
  | 'e' :: rest =>
      (match rest with
       | '+' :: ds =>
           match ds.span Char.isDigit with
           | ([], _) => none
           | (digits, rest2) => some ((natOfDigits digits : ℤ), rest2)
       | '-' :: ds =>
           match ds.span Char.isDigit with
           | ([], _) => none
           | (digits, rest2) => some (-(natOfDigits digits : ℤ), rest2)
       | ds =>
           match ds.span Char.isDigit with
           | ([], _) => none
           | (digits, rest2) => some ((natOfDigits digits : ℤ), rest2))
  | _ => none

/-- A character that may occur inside the mantissa of a numeric literal. -/
def isNumChar (c : Char) : Bool :=
  c.isDigit || c == '.'

/-- A character that may occur inside an identifier word. -/
def isIdentChar (c : Char) : Bool :=
  c.isAlpha || c.isDigit || c == '_'

/-- Modelled from the spec: the tokenizer loop.  Whitespace is
insignificant between tokens; `**` is a single token; a word starting with
a digit or `.` is a numeric literal (exponential notation supported); a
word starting with a letter is an identifier.  Fuel bounds the recursion
(each step consumes at least one character). -/
def lexLoop : ℕ → List Char → Except ParseError (List Tok)
  | 0, _ => .error .MalformedFunctionSyntax
  | _, [] => .ok []
  | fuel + 1, c :: cs =>
      if c.isWhitespace then lexLoop fuel cs
      else if c == '+' then (lexLoop fuel cs).map (fun ts => Tok.plus :: ts)
      else if c == '-' then (lexLoop fuel cs).map (fun ts => Tok.minus :: ts)
      else if c == '/' then (lexLoop fuel cs).map (fun ts => Tok.slash :: ts)
      else if c == '(' then (lexLoop fuel cs).map (fun ts => Tok.lparen :: ts)
      else if c == ')' then (lexLoop fuel cs).map (fun ts => Tok.rparen :: ts)
      else if c == ';' then (lexLoop fuel cs).map (fun ts => Tok.semi :: ts)
      else if c == ',' then (lexLoop fuel cs).map (fun ts => Tok.comma :: ts)
      else if c == ':' then (lexLoop fuel cs).map (fun ts => Tok.colon :: ts)
      else if c == '!' then (lexLoop fuel cs).map (fun ts => Tok.bang :: ts)
      else if c == '*' then
        match cs with
        | '*' :: cs2 => (lexLoop fuel cs2).map (fun ts => Tok.dstar :: ts)
        | _ => (lexLoop fuel cs).map (fun ts => Tok.star :: ts)
      else if isNumChar c then
        match (c :: cs).span isNumChar with
        | (mant, rest1) =>
            match mantissaToRat mant with
            | none => .error .MalformedFunctionSyntax
            | some m =>
                match lexExponent rest1 with
                | some (ex, rest2) =>
                    (lexLoop fuel rest2).map (fun ts => Tok.num (m * (10 : ℚ) ^ ex) :: ts)
                | none => (lexLoop fuel rest1).map (fun ts => Tok.num m :: ts)
      else if c.isAlpha then
        match (c :: cs).span isIdentChar with
        | (w, rest) => (lexLoop fuel rest).map (fun ts => Tok.ident (String.mk w) :: ts)
      else .error .MalformedFunctionSyntax

/-- Modelled from the spec: tokenize a function source string. -/
def lex (s : String) : Except ParseError (List Tok) :=
  lexLoop (s.toList.length + 1) s.toList

/-- A macro table with tokenized replacement text, as used inside the
expression parser. -/
abbrev TokTable := List (String × List Tok)

/-- Modelled from the spec: the level of the recursive-descent expression
parser currently being parsed (`expression`, `term`, `factor`, `atom`; the
`Rest` levels carry the expression accumulated so far while folding a
left-associative operator chain). -/
inductive PLevel
  | pexpr
  | pterm
  | pfactor
  | patom
  | pexprRest (acc : Expr)
  | ptermRest (acc : Expr)

/-- Modelled from the spec: recursive-descent parser for the arithmetic
expression grammar
`expression := ("+"|"-")? term (("+"|"-") term)*`,
`term := factor (("*"|"/") factor)*`,
`factor := atom ("**" signed_number)?` (the exponent may be parenthesized,
as in `T**(-1)`),
`atom := number | variable | "LN(" expression ")" | "(" expression ")" |
macro_ref`.
A leading minus negates the first term (modelled as subtraction from the
literal `0`).  A macro reference is an identifier bound in the table; its
replacement token text is parsed to a complete expression and spliced in
(expansion to a fixed point, bounded by the fuel).  Any other identifier is
a state-variable reference.  Fuel bounds the recursion; exhaustion reports
`MalformedFunctionSyntax`. -/
def parseStep (tbl : TokTable) : ℕ → PLevel → List Tok → Except ParseError (Expr × List Tok)
  | 0, _, _ => .error .MalformedFunctionSyntax
  | fuel + 1, lvl, ts =>
      match lvl with
      | .patom =>
          match ts with
          | .num q :: rest => .ok (.Literal q, rest)
          | .ident "LN" :: .lparen :: rest =>
              (match parseStep tbl fuel .pexpr rest with
               | .error e => .error e
               | .ok (a, rest2) =>
                   match rest2 with
                   | .rparen :: rest3 => .ok (.Log a, rest3)
                   | _ => .error .MalformedFunctionSyntax)
          | .lparen :: rest =>
              (match parseStep tbl fuel .pexpr rest with
               | .error e => .error e
               | .ok (a, rest2) =>
                   match rest2 with
                   | .rparen :: rest3 => .ok (a, rest3)
                   | _ => .error .MalformedFunctionSyntax)
          | .ident s :: rest =>
              (match List.lookup s tbl with
               | some rep =>
                   match parseStep tbl fuel .pexpr rep with
                   | .error e => .error e
                   | .ok (a, rem) =>
                       match rem with
                       | [] => .ok (a, rest)
                       | _ => .error .MalformedFunctionSyntax
               | none => .ok (.Variable s, rest))
          | _ => .error .MalformedFunctionSyntax
      | .pfactor =>
          match parseStep tbl fuel .patom ts with
          | .error e => .error e
          | .ok (a, rest) =>
              match rest with
              | .dstar :: .num q :: rest2 => .ok (.Power a q, rest2)
              | .dstar :: .minus :: .num q :: rest2 => .ok (.Power a (-q), rest2)
              | .dstar :: .lparen :: .num q :: .rparen :: rest2 => .ok (.Power a q, rest2)
              | .dstar :: .lparen :: .minus :: .num q :: .rparen :: rest2 =>
                  .ok (.Power a (-q), rest2)
              | .dstar :: _ => .error .MalformedFunctionSyntax
              | _ => .ok (a, rest)
      | .ptermRest acc =>
          match ts with
          | .star :: rest =>
              (match parseStep tbl fuel .pfactor rest with
               | .error e => .error e
               | .ok (b, rest2) => parseStep tbl fuel (.ptermRest (.BinaryOp .mul acc b)) rest2)
          | .slash :: rest =>
              (match parseStep tbl fuel .pfactor rest with
               | .error e => .error e
               | .ok (b, rest2) => parseStep tbl fuel (.ptermRest (.BinaryOp .div acc b)) rest2)
          | _ => .ok (acc, ts)
      | .pterm =>
          match parseStep tbl fuel .pfactor ts with
          | .error e => .error e
          | .ok (a, rest) => parseStep tbl fuel (.ptermRest a) rest
      | .pexprRest acc =>
          match ts with
          | .plus :: rest =>
              (match parseStep tbl fuel .pterm rest with
               | .error e => .error e
               | .ok (b, rest2) => parseStep tbl fuel (.pexprRest (.BinaryOp .add acc b)) rest2)
          | .minus :: rest =>
              (match parseStep tbl fuel .pterm rest with
               | .error e => .error e
               | .ok (b, rest2) => parseStep tbl fuel (.pexprRest (.BinaryOp .sub acc b)) rest2)
          | _ => .ok (acc, ts)
      | .pexpr =>
          match ts with
          | .minus :: rest =>
              (match parseStep tbl fuel .pterm rest with
               | .error e => .error e
               | .ok (a, rest2) =>
                   parseStep tbl fuel (.pexprRest (.BinaryOp .sub (.Literal 0) a)) rest2)
          | .plus :: rest =>
              (match parseStep tbl fuel .pterm rest with
               | .error e => .error e
               | .ok (a, rest2) => parseStep tbl fuel (.pexprRest a) rest2)
          | _ =>
              match parseStep tbl fuel .pterm ts with
              | .error e => .error e
              | .ok (a, rest) => parseStep tbl fuel (.pexprRest a) rest

/-- Modelled from the spec: parse an optionally negated numeric literal
(used for low limits, high limits and exponents). -/
def parseSignedNum : List Tok → Except ParseError (ℚ × List Tok)
  | .num q :: rest => .ok (q, rest)
  | .minus :: .num q :: rest => .ok (-q, rest)
  | _ => .error .MalformedFunctionSyntax

/-- Shape of what follows a parsed segment: the `;,,N` terminator, a
`; <highLimit> Y` separator (with an optionally negated limit), or a
syntax error. -/
inductive SegHead
  | term (rest : List Tok)
  | sep (h : ℚ) (rest : List Tok)
  | bad

/-- Modelled from the spec: classify the tokens following a segment —
the terminator `;,,N`, or a separator `; <highLimit> Y`. -/
def segHead : List Tok → SegHead
  | .semi :: .comma :: .comma :: .ident "N" :: rest => .term rest
  | .semi :: .num q :: .ident "Y" :: rest => .sep q rest
  | .semi :: .minus :: .num q :: .ident "Y" :: rest => .sep (-q) rest
  | _ => .bad

/-- Modelled from the spec: the segment loop.  Having parsed a segment
(its low limit `low` and expression `e`), either the terminator `;,,N`
follows (the segment list ends; the final high limit is omitted), or a
separator `; <highLimit> Y` followed by the next segment's expression.
The high limit becomes both this segment's high limit and the next
segment's low limit; a high limit not strictly greater than the current
low limit is rejected with `InconsistentRangeBounds`.  `efuel` is the fuel
handed to the expression parser; the loop's own fuel decreases with each
segment. -/
def parseSegments (tbl : TokTable) (efuel : ℕ) :
    ℕ → ℚ → Expr → List Tok → Except ParseError (List FuncSegment × List Tok)
  | 0, _, _, _ => .error .MalformedFunctionSyntax
  | fuel + 1, low, e, ts =>
      match segHead ts with
      | .term rest => .ok ([⟨low, none, e⟩], rest)
      | .sep h rest =>
          if h ≤ low then .error .InconsistentRangeBounds
          else
            (match parseStep tbl efuel .pexpr rest with
             | .error er => .error er
             | .ok (e2, rest2) =>
                 match parseSegments tbl efuel fuel h e2 rest2 with
                 | .error er => .error er
                 | .ok (segs, rest3) => .ok (⟨low, some h, e⟩ :: segs, rest3))
      | .bad => .error .MalformedFunctionSyntax

/-- Modelled from the spec: tokenize every replacement text of a macro
table. -/
def lexTable : List (String × String) → Except ParseError TokTable
  | [] => .ok []
  | (n, text) :: rest =>
      match lex text with
      | .error e => .error e
      | .ok ts =>
          match lexTable rest with
          | .error e => .error e
          | .ok tl => .ok ((n, ts) :: tl)

/-- Fuel handed to the expression parser: generous bound derived from the
token count and the total size of the macro table's replacement texts. -/
def exprFuel (ts : List Tok) (tbl : TokTable) : ℕ :=
  8 * (ts.length + 2) * (tbl.foldl (fun a p => a + p.2.length) 2 + 2)

/-- Modelled from the spec: parse one textual piecewise-function
definition — `lowlimit expression` segments separated by `; highlimit Y`,
terminated by `;,,N REF: <tag> !` — into the ordered segment list plus the
trailing reference tag.  The reference tag is kept as the token sequence
between `REF:` and the final `!`. -/
def parse_function (mtbl : List (String × String)) (s : String) :
    Except ParseError PiecewiseFunc :=
  match lex s with
  | .error e => .error e
  | .ok ts =>
      match lexTable mtbl with
      | .error e => .error e
      | .ok tbl =>
          match parseSignedNum ts with
          | .error e => .error e
          | .ok (low, ts1) =>
              match parseStep tbl (exprFuel ts tbl) .pexpr ts1 with
              | .error e => .error e
              | .ok (e0, ts2) =>
                  match parseSegments tbl (exprFuel ts tbl) (ts2.length + 1) low e0 ts2 with
                  | .error e => .error e
                  | .ok (segs, ts3) =>
                      match ts3 with
                      | .ident "REF" :: .colon :: rest =>
                          (match rest.span (fun t => !(t == Tok.bang)) with
                           | (tag, rest2) =>
                               match rest2 with
                               | [.bang] => .ok ⟨segs, tag⟩
                               | _ => .error .MalformedFunctionSyntax)
                      | _ => .error .MalformedFunctionSyntax

/-- The shape invariant of a parsed segment list: segment low limits are
strictly increasing, each segment's high limit equals the next segment's
low limit, and the final segment's high limit is omitted (`none`).  The
index is the low limit of the first segment. -/
inductive SegChain : ℚ → List FuncSegment → Prop
  | last : ∀ (low : ℚ) (e : Expr), SegChain low [⟨low, none, e⟩]
  | cons : ∀ (low h : ℚ) (e : Expr) (rest : List FuncSegment),
      low < h → SegChain h rest → SegChain low (⟨low, some h, e⟩ :: rest)

/-! Macro table

Modelled from the spec: the macro table maps a symbol name to its literal
replacement text; `define` stores or overwrites a macro but must reject,
at definition time, any macro whose resolved expansion — after chasing all
nested references — would reference itself, directly or transitively,
failing with `CyclicMacroReference`. -/

/-- The macro table: name → replacement text.  `define` prepends, so a
lookup finds the most recent definition (last write wins). -/
abbrev MTable := List (String × String)

/-- Identifier words (maximal runs of letters/digits/underscores starting
with a letter) occurring in a replacement text; these are the candidate
nested macro references.  Fuel bounds the scan (each step consumes at
least one character). -/
def identsLoop : ℕ → List Char → List String
  | 0, _ => []
  | _, [] => []
  | fuel + 1, c :: cs =>
      if c.isAlpha then
        match (c :: cs).span isIdentChar with
        | (w, rest) => String.mk w :: identsLoop fuel rest
      else identsLoop fuel cs

/-- Identifier words of a replacement text. -/
def identsOf (s : String) : List String :=
  identsLoop (s.toList.length + 1) s.toList

/-- Modelled from the spec: the macro names directly referenced by the
replacement text of `a` — the identifiers in its text that are themselves
bound in the table (identifiers not bound in the table are state-variable
symbols, not macro references). -/
def refsOf (t : MTable) (a : String) : List String :=
  match List.lookup a t with
  | none => []
  | some text => (identsOf text).filter (fun m => (List.lookup m t).isSome)

/-- The set of macro names bound in a table. -/
def keysOf (t : MTable) : Finset String :=
  (t.map Prod.fst).toFinset

/-- One saturation step of the reference-reachability computation: add
every name directly referenced from a name already in the set. -/
def stepSet (t : MTable) (s : Finset String) : Finset String :=
  s ∪ s.biUnion (fun m => (refsOf t m).toFinset)

/-- Modelled from the spec: the set of macro names reachable from `n` by
chasing nested references, computed by saturating the direct-reference
step; `t.length + 1` iterations always reach the fixed point because the
sets grow inside the finite key set. -/
def reachableFrom (t : MTable) (n : String) : Finset String :=
  (stepSet t)^[t.length + 1] (refsOf t n).toFinset

/-- Modelled from the spec: `define(name, text)` — store or overwrite a
macro, but reject, eagerly at definition time, a macro whose resolved
expansion would reference itself, directly or transitively, with
`CyclicMacroReference` naming the offending macro. -/
def defineMacro (t : MTable) (n text : String) : Except ParseError MTable :=
  let t2 := (n, text) :: t
  if n ∈ reachableFrom t2 n then .error (.CyclicMacroReference n) else .ok t2

/-- Modelled from the spec: `resolve(name)` — look the macro up, failing
with `UndefinedMacro` if absent. -/
def resolveMacro (t : MTable) (n : String) : Except ParseError String :=
  match List.lookup n t with
  | none => .error (.UndefinedMacro n)
  | some text => .ok text

/-- Transitive reference relation of a macro table: `Reaches t a b` holds
when the full expansion of `a` references `b` through one or more nested
reference steps. -/
inductive Reaches (t : MTable) : String → String → Prop
  | direct : ∀ {a b : String}, b ∈ refsOf t a → Reaches t a b
  | step : ∀ {a b c : String}, b ∈ refsOf t a → Reaches t b c → Reaches t a c

/-! structure.hpp: Sublattice, Parameter, the multi-index store and
Phase -/

/-- From structure.hpp: `struct Sublattice` — a site stoichiometric
coefficient plus the list of constituents (the source comments that the
constituents "must all be unique"). -/
structure Sublattice where
  stoi_coef : ℚ
  constituents : List String
deriving Repr, DecidableEq

/-- From structure.hpp: `void add_constituent(std::string constituent)
{ constituents.push_back(constituent); }` — an unconditional append. -/
def Sublattice.add_constituent (s : Sublattice) (c : String) : Sublattice :=
  ⟨s.stoi_coef, s.constituents ++ [c]⟩

/-- From structure.hpp: `struct Parameter` — phase name, optional suffix,
type tag, constituent array, Redlich-Kister degree and the parsed
expression tree. -/
structure Parameter where
  phase : String
  suffix : String
  type : String
  constituent_array : List (List String)
  degree : ℤ
  ast : PiecewiseFunc
deriving Repr, DecidableEq

/-- From structure.hpp: `Parameter::phasename()` — `phase + "_" + suffix`
when the suffix is non-empty, otherwise `phase`; recomputed from the
current field values on every call (the C++ method builds a fresh
string and caches nothing). -/
def Parameter.phasename (p : Parameter) : String :=
  if p.suffix = "" then p.phase else p.phase ++ "_" ++ p.suffix

/-- Assigning new `phase`/`suffix` field values to a Parameter record
(functional model of field mutation; all other fields are kept). -/
def Parameter.with_keys (p : Parameter) (ph sf : String) : Parameter :=
  ⟨ph, sf, p.type, p.constituent_array, p.degree, p.ast⟩

/-- From structure.hpp: the owning store `parameter_set` is a
`boost::multi_index_container` of `Parameter` with two
`ordered_non_unique` indexes; its phase index is keyed on the member
function `phasename()` (`BOOST_MULTI_INDEX_CONST_MEM_FUN(Parameter,
std::string, phasename)`).  An equal-range query of an ordered non-unique
index returns exactly the records whose key equals the queried key, and
records with equal keys keep their insertion order; over the insertion
sequence this is a stable filter. -/
def query_by_phase (inserted : List Parameter) (key : String) : List Parameter :=
  inserted.filter (fun p => p.phasename == key)

/-- From structure.hpp: the type index of `parameter_set`, keyed on the
`type` member (`BOOST_MULTI_INDEX_MEMBER(Parameter, std::string, type)`). -/
def query_by_type (inserted : List Parameter) (key : String) : List Parameter :=
  inserted.filter (fun p => p.type == key)

/-- From structure.hpp: the non-owning view `parameter_set_view` holds
`const Parameter*` handles; its phase index is keyed on the raw `phase`
member (`BOOST_MULTI_INDEX_MEMBER(Parameter, const std::string, phase)`),
not on `phasename()`.  The referenced records stand for their handles. -/
def view_query_by_phase (refs : List Parameter) (key : String) : List Parameter :=
  refs.filter (fun p => p.phase == key)

/-- From structure.hpp: the type index of `parameter_set_view`, keyed on
the `type` member. -/
def view_query_by_type (refs : List Parameter) (key : String) : List Parameter :=
  refs.filter (fun p => p.type == key)

/-- `Interleaving l xs ys`: `l` is an interleaving of the two insertion
subsequences `xs` and `ys` (their relative orders preserved). -/
inductive Interleaving : List Parameter → List Parameter → List Parameter → Prop
  | nil : Interleaving [] [] []
  | cons_left : ∀ (p : Parameter) (l xs ys : List Parameter),
      Interleaving l xs ys → Interleaving (p :: l) (p :: xs) ys
  | cons_right : ∀ (p : Parameter) (l xs ys : List Parameter),
      Interleaving l xs ys → Interleaving (p :: l) xs (p :: ys)

/-! Phase with an explicit store (copy semantics of `sublattices()`)

`Phase::sublattices()` returns its `Sublattice_Collection` by value — a
copy (the source comments "makes a copy").  To state what a copy means,
collections live in an explicit store of cells; an address is an index
into the store and allocation appends a fresh cell. -/

/-- A store of sublattice collections; addresses are indices. -/
abbrev SublStore := List (List Sublattice)

/-- Contents of the cell at an address (the empty collection for a
dangling address). -/
def storeRead (st : SublStore) (loc : ℕ) : List Sublattice :=
  st.getD loc []

/-- Overwrite the cell at an address (mutation of a collection). -/
def storeWrite (st : SublStore) (loc : ℕ) (v : List Sublattice) : SublStore :=
  st.set loc v

/-- From structure.hpp: `class Phase` — its name and the address of its
owned `subls` collection in the store. -/
structure PhaseObj where
  phase_name : String
  subls : ℕ

/-- From structure.hpp: `int sublattice_count() { return (int)
subls.size(); }`. -/
def PhaseObj.sublattice_count (st : SublStore) (p : PhaseObj) : ℤ :=
  (storeRead st p.subls).length

/-- From structure.hpp: `Sublattice_Collection sublattices() { return
subls; } // makes a copy` — return by value: allocate a fresh cell holding
a copy of the phase's collection and hand back its address. -/
def PhaseObj.sublattices (st : SublStore) (p : PhaseObj) : SublStore × ℕ :=
  (st ++ [storeRead st p.subls], st.length)

/-! Concrete fixtures -/

/-- Oracle instance whose transcendental primitives return 0; the claims
settled below never reach them. -/
def ops0 : NumOps :=
  ⟨fun _ => 0, fun _ _ => 0⟩

/-- The condition lookup of the test fixture after `clear_conditions();
set_conditions("T", 1400)`. -/
def condT1400 : String → Option NumVal :=
  fun n => if n = "T" then some (.finite 1400) else none

/-- A condition lookup binding `T` to NaN. -/
def condTNaN : String → Option NumVal :=
  fun n => if n = "T" then some .nan else none

/-- A condition lookup binding `T` to positive infinity. -/
def condTInf : String → Option NumVal :=
  fun n => if n = "T" then some .posInf else none

/-- A condition lookup binding `T` to exactly 0. -/
def condTZero : String → Option NumVal :=
  fun n => if n = "T" then some (.finite 0) else none

/-- A condition lookup binding `T` to 100 (below the first low limit of
the lone-symbol fixture function). -/
def condT100 : String → Option NumVal :=
  fun n => if n = "T" then some (.finite 100) else none

/-- The function text of the `TRangeFunctionLoneSymbol` test
(func_test.cpp). -/
def loneStr : String :=
  "298.15 1; 1000 Y T;,,N REF: 0 !"

/-- The parse of `loneStr`: segment `[298.15, 1000)` with expression `1`,
then the final, upward-unbounded segment starting at `1000` with
expression `T`. -/
def pfLone : PiecewiseFunc :=
  ⟨[⟨5963 / 20, some 1000, .Literal 1⟩, ⟨1000, none, .Variable "T"⟩], [Tok.num 0]⟩

/-- An empty piecewise function value (placeholder `ast` for concrete
Parameter records). -/
def pfEmpty : PiecewiseFunc :=
  ⟨[], []⟩

/-- A concrete FCC parameter record with empty suffix. -/
def pFCC1 : Parameter :=
  ⟨"FCC", "", "G", [["NI"]], 0, pfEmpty⟩

/-- A second concrete FCC parameter record with empty suffix. -/
def pFCC2 : Parameter :=
  ⟨"FCC", "", "L", [["NI", "AL"]], 1, pfEmpty⟩

/-- A concrete BCC parameter record with empty suffix. -/
def pBCC : Parameter :=
  ⟨"BCC", "", "G", [["CR"]], 0, pfEmpty⟩

/-- A concrete parameter record with a non-empty ordering suffix. -/
def pOrd : Parameter :=
  ⟨"FCC", "L12", "G", [["NI", "AL"]], 0, pfEmpty⟩

deriving instance DecidableEq for Except

/-! Theorems -/

/-- C5: `phasename()` returns the `phase` field unchanged when `suffix` is
the empty string and `phase + "_" + suffix` otherwise; it is recomputed
from the current field values — after assigning new `phase`/`suffix`
values the result reflects them, and the result depends on no field other
than `phase` and `suffix` (nothing is cached). -/
theorem phasename_formula_recomputed (p q : Parameter) (ph sf : String)
    (h1 : q.phase = p.phase) (h2 : q.suffix = p.suffix) :
    p.phasename = (if p.suffix = "" then p.phase else p.phase ++ "_" ++ p.suffix)
    ∧ (p.with_keys ph sf).phasename = (if sf = "" then ph else ph ++ "_" ++ sf)
    ∧ q.phasename = p.phasename := by
  refine ⟨rfl, rfl, ?_⟩
  simp [Parameter.phasename, h1, h2]

/-- Witness for C5 at concrete records (the second record differs from
`pOrd` in every field except the two key fields). -/
theorem phasename_formula_recomputed_witness :
    pOrd.phasename = (if pOrd.suffix = "" then pOrd.phase else pOrd.phase ++ "_" ++ pOrd.suffix)
    ∧ (pOrd.with_keys "BCC" "").phasename = (if "" = "" then "BCC" else "BCC" ++ "_" ++ "")
    ∧ (Parameter.mk "FCC" "L12" "TC" [] 2 pfEmpty).phasename = pOrd.phasename :=
  phasename_formula_recomputed pOrd (Parameter.mk "FCC" "L12" "TC" [] 2 pfEmpty) "BCC" "" rfl rfl

/-- C9 counterexample: `add_constituent` is an unconditional `push_back`;
adding an already-present constituent produces a duplicate entry, so the
uniqueness of an initially-unique constituent list is not preserved. -/
theorem add_constituent_duplicate :
    ((Sublattice.mk 1 ["NI"]).add_constituent "NI").constituents = ["NI", "NI"]
    ∧ ¬ ((Sublattice.mk 1 ["NI"]).add_constituent "NI").constituents.Nodup :=
  ⟨rfl, by decide⟩

/-- C9 amended: `add_constituent` appends its argument unconditionally
(with no duplicate check); uniqueness of the constituent list is preserved
exactly when the added constituent is not already present, which is a
caller obligation. -/
theorem add_constituent_fresh_keeps_nodup (s : Sublattice) (c : String)
    (h1 : s.constituents.Nodup) (h2 : c ∉ s.constituents) :
    (s.add_constituent c).constituents.Nodup
    ∧ (s.add_constituent c).constituents = s.constituents ++ [c] := by
  refine ⟨?_, rfl⟩
  simp [Sublattice.add_constituent, List.nodup_append, h1, h2]

/-- Witness for C9's amended statement at a concrete sublattice. -/
theorem add_constituent_fresh_keeps_nodup_witness :
    ((Sublattice.mk 1 ["NI"]).add_constituent "AL").constituents.Nodup
    ∧ ((Sublattice.mk 1 ["NI"]).add_constituent "AL").constituents = ["NI"] ++ ["AL"] :=
  add_constituent_fresh_keeps_nodup (Sublattice.mk 1 ["NI"]) "AL" (by decide) (by decide)

/-- C4 counterexample: the view's phase index is keyed on the raw `phase`
member, not on `phasename()` — for a record with a non-empty suffix the
owning store's phase index answers the composite key `"FCC_L12"` while the
view answers the bare `"FCC"` instead. -/
theorem view_phase_key_mismatch :
    pOrd.phasename = "FCC_L12"
    ∧ query_by_phase [pOrd] "FCC_L12" = [pOrd]
    ∧ view_query_by_phase [pOrd] "FCC_L12" = []
    ∧ view_query_by_phase [pOrd] "FCC" = [pOrd] := by
  refine ⟨?_, ?_, ?_, ?_⟩ <;> decide

/-- C4 amended: the view indexes its references by the raw `phase` member
and by `type`; its phase index agrees with the owning store's
`phasename()` index exactly on record collections whose suffixes are all
empty, and the two type indexes agree unconditionally. -/
theorem view_query_agrees_when_no_suffix (ps : List Parameter) (key : String)
    (h : ∀ p ∈ ps, p.suffix = "") :
    view_query_by_phase ps key = query_by_phase ps key
    ∧ ∀ k2, view_query_by_type ps k2 = query_by_type ps k2 := by
  refine ⟨?_, fun _ => rfl⟩
  induction ps with
  | nil => rfl
  | cons p l ih =>
      have hp : p.phasename = p.phase := by
        simp [Parameter.phasename, h p (by simp)]
      have hl := ih (fun q hq => h q (by simp [hq]))
      simp only [view_query_by_phase, query_by_phase, List.filter_cons] at hl ⊢
      rw [hp, hl]

/-- Witness for C4's amended statement at concrete suffix-free records. -/
theorem view_query_agrees_when_no_suffix_witness :
    view_query_by_phase [pFCC1, pBCC] "FCC" = query_by_phase [pFCC1, pBCC] "FCC"
    ∧ ∀ k2, view_query_by_type [pFCC1, pBCC] k2 = query_by_type [pFCC1, pBCC] k2 :=
  view_query_agrees_when_no_suffix [pFCC1, pBCC] "FCC" (by decide)

/-- C6: `query_by_phase` returns exactly the inserted records whose
`phasename()` equals the key — in their insertion order, independent of
how records of other phases were interleaved among them. -/
theorem query_by_phase_exact_stable (l xs ys : List Parameter) (key : String)
    (hI : Interleaving l xs ys)
    (hxs : ∀ p ∈ xs, p.phasename = key)
    (hys : ∀ p ∈ ys, p.phasename ≠ key) :
    query_by_phase l key = xs
    ∧ ∀ q : Parameter, q ∈ query_by_phase l key ↔ q ∈ l ∧ q.phasename = key := by
  constructor
  · induction hI with
    | nil => rfl
    | cons_left p l' xs' ys' h ih =>
        have hp : p.phasename = key := hxs p (by simp)
        have hrec := ih (fun q hq => hxs q (by simp [hq])) hys
        simp only [query_by_phase, List.filter_cons] at hrec ⊢
        simp [hp, hrec]
    | cons_right p l' xs' ys' h ih =>
        have hp : ¬ p.phasename = key := hys p (by simp)
        have hrec := ih hxs (fun q hq => hys q (by simp [hq]))
        simp only [query_by_phase, List.filter_cons] at hrec ⊢
        simp [hp, hrec]
  · intro q
    simp [query_by_phase, List.mem_filter]

/-- Witness for C6: two FCC records with a BCC record interleaved between
them; the query returns the FCC records in insertion order. -/
theorem query_by_phase_exact_stable_witness :
    query_by_phase [pFCC1, pBCC, pFCC2] "FCC" = [pFCC1, pFCC2]
    ∧ ∀ q : Parameter, q ∈ query_by_phase [pFCC1, pBCC, pFCC2] "FCC" ↔
        q ∈ [pFCC1, pBCC, pFCC2] ∧ q.phasename = "FCC" :=
  query_by_phase_exact_stable [pFCC1, pBCC, pFCC2] [pFCC1, pFCC2] [pBCC] "FCC"
    (Interleaving.cons_left _ _ _ _ (Interleaving.cons_right _ _ _ _
      (Interleaving.cons_left _ _ _ _ Interleaving.nil)))
    (by decide) (by decide)

/-- C3: parsing `"298.15 1; 1000 Y T;,,N REF: 0 !"` and evaluating it with
a condition lookup where `T = 1400` selects the second segment (the bare
variable expression `T`) and returns exactly 1400. -/
theorem lone_symbol_eval_1400 :
    (parse_function [] loneStr).map (fun pf => selectSegment 1400 pf.segments)
      = .ok (some ⟨1000, none, .Variable "T"⟩)
    ∧ (parse_function [] loneStr).map (fun pf => evaluate ops0 "T" pf condT1400)
      = .ok (.ok 1400) := by
  refine ⟨?_, ?_⟩ <;> with_unfolding_all rfl

/-- Helper: a list whose last element is `a` contains `a`. -/
theorem mem_of_getLast_opt {α : Type} :
    ∀ (l : List α) (a : α), l.getLast? = some a → a ∈ l
  | [], _, h => by simp at h
  | [b], a, h => by
      simp [List.getLast?] at h
      simp [h]
  | b :: c :: t, a, h => by
      rw [List.getLast?_cons_cons] at h
      exact List.mem_cons_of_mem _ (mem_of_getLast_opt (c :: t) a h)

/-- Helper: `getLast?` ignores a cons onto a non-empty list. -/
theorem getLast_opt_cons_ne {α : Type} (a : α) (l : List α) (h : l ≠ []) :
    (a :: l).getLast? = l.getLast? := by
  cases l with
  | nil => exact absurd rfl h
  | cons b t => exact List.getLast?_cons_cons ..

/-- A segment chain is non-empty and starts with a segment whose low limit
is the chain's index. -/
theorem segChain_head_low {low : ℚ} {segs : List FuncSegment} (h : SegChain low segs) :
    ∃ s rest, segs = s :: rest ∧ s.lowlimit = low := by
  cases h with
  | last l e => exact ⟨_, _, rfl, rfl⟩
  | cons l hq e rest hlt hrest => exact ⟨_, _, rfl, rfl⟩

/-- Every segment of a chain has its low limit bounded below by the
chain's index. -/
theorem segChain_low_le {low : ℚ} {segs : List FuncSegment} (h : SegChain low segs) :
    ∀ s ∈ segs, low ≤ s.lowlimit := by
  induction h with
  | last l e =>
      intro s hs
      simp at hs
      subst hs
      exact le_refl _
  | cons l hq e rest hlt hrest ih =>
      intro s hs
      rcases List.mem_cons.1 hs with h1 | h2
      · subst h1; exact le_refl _
      · exact le_of_lt (lt_of_lt_of_le hlt (ih s h2))

/-- The segment-loop invariant: a successful `parseSegments` run produces
a segment chain starting at the low limit it was handed. -/
theorem parseSegments_chain (tbl : TokTable) (efuel : ℕ) :
    ∀ (fuel : ℕ) (low : ℚ) (e : Expr) (ts : List Tok)
      (segs : List FuncSegment) (rest : List Tok),
      parseSegments tbl efuel fuel low e ts = .ok (segs, rest) → SegChain low segs := by
  intro fuel
  induction fuel with
  | zero =>
      intro low e ts segs rest h
      simp [parseSegments] at h
  | succ n ih =>
      intro low e ts segs rest h
      rw [parseSegments] at h
      cases hsh : segHead ts with
      | term r =>
          rw [hsh] at h
          dsimp only at h
          injection h with h1
          injection h1 with h2 h3
          subst h2
          exact SegChain.last low e
      | sep q r =>
          rw [hsh] at h
          dsimp only at h
          by_cases hq : q ≤ low
          · rw [if_pos hq] at h
            simp at h
          · rw [if_neg hq] at h
            cases hps : parseStep tbl efuel .pexpr r with
            | error er => rw [hps] at h; simp at h
            | ok pe =>
                obtain ⟨e2, rest2⟩ := pe
                rw [hps] at h
                dsimp only at h
                cases hrec : parseSegments tbl efuel n q e2 rest2 with
                | error er => rw [hrec] at h; simp at h
                | ok pr =>
                    obtain ⟨segs2, rest3⟩ := pr
                    rw [hrec] at h
                    dsimp only at h
                    injection h with h1
                    injection h1 with h2 h3
                    subst h2
                    exact SegChain.cons low q e segs2 (lt_of_not_ge hq)
                      (ih q e2 rest2 segs2 rest3 hrec)
      | bad =>
          rw [hsh] at h
          simp at h

/-- A successfully parsed piecewise function satisfies the segment-chain
invariant, anchored at its first low limit. -/
theorem parse_function_chain (mtbl : List (String × String)) (src : String)
    (pf : PiecewiseFunc) (hp : parse_function mtbl src = .ok pf) :
    SegChain (firstLow pf) pf.segments := by
  unfold parse_function at hp
  cases hlex : lex src with
  | error e => rw [hlex] at hp; simp at hp
  | ok ts =>
  rw [hlex] at hp
  dsimp only at hp
  cases htbl : lexTable mtbl with
  | error e => rw [htbl] at hp; simp at hp
  | ok tbl =>
  rw [htbl] at hp
  dsimp only at hp
  cases hsn : parseSignedNum ts with
  | error e => rw [hsn] at hp; simp at hp
  | ok p =>
  obtain ⟨low, ts1⟩ := p
  rw [hsn] at hp
  dsimp only at hp
  cases hstep : parseStep tbl (exprFuel ts tbl) .pexpr ts1 with
  | error e => rw [hstep] at hp; simp at hp
  | ok q =>
  obtain ⟨e0, ts2⟩ := q
  rw [hstep] at hp
  dsimp only at hp
  cases hseg : parseSegments tbl (exprFuel ts tbl) (ts2.length + 1) low e0 ts2 with
  | error e => rw [hseg] at hp; simp at hp
  | ok r =>
  obtain ⟨segs, ts3⟩ := r
  rw [hseg] at hp
  dsimp only at hp
  have hc := parseSegments_chain tbl (exprFuel ts tbl) (ts2.length + 1) low e0 ts2 segs ts3 hseg
  have hsegs : pf.segments = segs := by
    split at hp
    · split at hp
      · injection hp with h1
        subst h1
        rfl
      · simp at hp
    · simp at hp
  obtain ⟨s, srest, hseq, hlow⟩ := segChain_head_low hc
  have hfl : firstLow pf = low := by
    simp [firstLow, hsegs, hseq, hlow]
  rw [hfl, hsegs]
  exact hc

/-- Selection at the low limit of any segment of a chain yields exactly
that segment (half-open `[low, high)` semantics). -/
theorem segChain_select_at_low {low : ℚ} {segs : List FuncSegment} (h : SegChain low segs) :
    ∀ s ∈ segs, selectSegment s.lowlimit segs = some s := by
  induction h with
  | last l e =>
      intro s hs
      simp at hs
      subst hs
      simp [selectSegment, inRange]
  | cons l hq e rest hlt hrest ih =>
      intro s hs
      rcases List.mem_cons.1 hs with h1 | h2
      · subst h1
        simp [selectSegment, inRange, hlt]
      · have hge : hq ≤ s.lowlimit := segChain_low_le hrest s h2
        have hnot : ¬ (s.lowlimit < hq) := not_lt.2 hge
        have htail := ih s h2
        simp [selectSegment, inRange, hnot, htail]

/-- Selection below the chain's first low limit fails. -/
theorem segChain_select_below {low : ℚ} {segs : List FuncSegment} (h : SegChain low segs) :
    ∀ v : ℚ, v < low → selectSegment v segs = none := by
  induction h with
  | last l e =>
      intro v hv
      simp [selectSegment, inRange, not_le.2 hv]
  | cons l hq e rest hlt hrest ih =>
      intro v hv
      have htail := ih v (lt_trans hv hlt)
      simp [selectSegment, inRange, not_le.2 hv, htail]

/-- Selection at or above the final segment's low limit yields the final
segment (it is unbounded above). -/
theorem segChain_select_from_last {low : ℚ} {segs : List FuncSegment} (h : SegChain low segs) :
    ∀ sl, segs.getLast? = some sl → ∀ v : ℚ, sl.lowlimit ≤ v →
      selectSegment v segs = some sl := by
  induction h with
  | last l e =>
      intro sl hsl v hv
      simp [List.getLast?] at hsl
      subst hsl
      simp [selectSegment, inRange] at hv ⊢
      exact hv
  | cons l hq e rest hlt hrest ih =>
      intro sl hsl v hv
      have hne : rest ≠ [] := by
        cases hrest <;> simp
      rw [getLast_opt_cons_ne _ _ hne] at hsl
      have hmem : sl ∈ rest := mem_of_getLast_opt rest sl hsl
      have hq_le : hq ≤ sl.lowlimit := segChain_low_le hrest sl hmem
      have hnot : ¬ (v < hq) := not_lt.2 (le_trans hq_le hv)
      have htail := ih sl hsl v hv
      simp [selectSegment, inRange, hnot, htail]

/-- C2 counterexample: the lone-symbol fixture function's only stated
high-limit token is `1000`, yet evaluating it at `T = 1400 ≥ 1000`
returns the number 1400 instead of failing with
`StateVariableOutOfRange` — the behaviour the src test
`TRangeFunctionLoneSymbol` itself requires (func_test.cpp line 15).  The
final segment of a parsed function is unbounded above. -/
theorem eval_above_last_stated_limit_succeeds :
    (parse_function [] loneStr).map (fun pf => pf.segments.map FuncSegment.highlimit)
      = .ok [some 1000, none]
    ∧ ((1000 : ℚ) ≤ 1400)
    ∧ (parse_function [] loneStr).map (fun pf => evaluate ops0 "T" pf condT1400)
      = .ok (.ok 1400) := by
  refine ⟨?_, by norm_num, ?_⟩ <;> with_unfolding_all rfl

/-- C2 amended: for every successfully parsed piecewise function,
(a) evaluating at a value equal to a declared low limit selects the
segment whose range starts there (half-open `[low, high)` semantics);
(b) evaluating below the first low limit fails with
`StateVariableOutOfRange` naming the variable, value and overall bounds;
(c) the final segment has no high limit (the `;,,N` terminator omits it),
so every admissible value at or above the final segment's low limit — in
particular every value at or above the last stated high limit — selects
the final segment and evaluates its expression rather than failing. -/
theorem halfopen_selection_amended (mtbl : List (String × String)) (src : String)
    (pf : PiecewiseFunc) (hp : parse_function mtbl src = .ok pf) :
    (∀ s ∈ pf.segments, selectSegment s.lowlimit pf.segments = some s)
    ∧ (∀ (ops : NumOps) (lookup : String → Option NumVal) (v : ℚ),
        lookup "T" = some (.finite v) → v ≠ 0 → v < firstLow pf →
        evaluate ops "T" pf lookup
          = .error (.StateVariableOutOfRange "T" v (firstLow pf) (lastHigh pf)))
    ∧ (∀ (ops : NumOps) (lookup : String → Option NumVal) (v : ℚ) (sl : FuncSegment),
        pf.segments.getLast? = some sl →
        lookup "T" = some (.finite v) → v ≠ 0 → sl.lowlimit ≤ v →
        evaluate ops "T" pf lookup = evalExpr ops lookup sl.expression) := by
  have hc := parse_function_chain mtbl src pf hp
  refine ⟨segChain_select_at_low hc, ?_, ?_⟩
  · intro ops lookup v hlk hv0 hvlt
    have hsel := segChain_select_below hc v hvlt
    simp [evaluate, hlk, numericGuard, hv0, hsel]
  · intro ops lookup v sl hsl hlk hv0 hvge
    have hsel := segChain_select_from_last hc sl hsl v hvge
    simp [evaluate, hlk, numericGuard, hv0, hsel]

/-- Witness for C2's amended statement on the parsed lone-symbol fixture:
selection at the second segment's low limit `1000` returns it; `T = 100`
(below `298.15`) fails with the out-of-range error; `T = 1400` (above the
last stated limit `1000`) evaluates the final segment's expression. -/
theorem halfopen_selection_amended_witness :
    selectSegment (1000 : ℚ) pfLone.segments
      = some ⟨1000, none, Expr.Variable "T"⟩
    ∧ evaluate ops0 "T" pfLone condT100
      = .error (.StateVariableOutOfRange "T" 100 (firstLow pfLone) (lastHigh pfLone))
    ∧ evaluate ops0 "T" pfLone condT1400 = evalExpr ops0 condT1400 (Expr.Variable "T") := by
  have h := halfopen_selection_amended [] loneStr pfLone (by with_unfolding_all rfl)
  refine ⟨?_, ?_, ?_⟩
  · have := h.1 ⟨1000, none, Expr.Variable "T"⟩ (by simp [pfLone])
    simpa [pfLone] using this
  · exact h.2.1 ops0 condT100 100 rfl (by norm_num) (by norm_num [firstLow, pfLone])
  · exact h.2.2 ops0 condT1400 1400 ⟨1000, none, Expr.Variable "T"⟩ (by simp [pfLone])
      rfl (by norm_num) (by norm_num)

/-- C8: the numeric guard runs before range selection and tree evaluation:
for every piecewise function, every oracle choice and every condition
lookup binding the ranged variable `T` to NaN, positive infinity, or
exactly 0, evaluation fails with `InvalidStateVariableValue` — no numeric
result is produced regardless of the function's ranges or expressions. -/
theorem guard_rejects_nan_inf_zero (ops : NumOps) (pf : PiecewiseFunc)
    (lookup : String → Option NumVal) :
    (lookup "T" = some .nan →
        evaluate ops "T" pf lookup = .error .InvalidStateVariableValue)
    ∧ (lookup "T" = some .posInf →
        evaluate ops "T" pf lookup = .error .InvalidStateVariableValue)
    ∧ (lookup "T" = some (.finite 0) →
        evaluate ops "T" pf lookup = .error .InvalidStateVariableValue) := by
  refine ⟨?_, ?_, ?_⟩ <;> intro h <;> simp [evaluate, h, numericGuard]

/-- Witness for C8 at concrete lookups binding `T` to NaN, +infinity and
0. -/
theorem guard_rejects_nan_inf_zero_witness :
    evaluate ops0 "T" pfEmpty condTNaN = .error .InvalidStateVariableValue
    ∧ evaluate ops0 "T" pfEmpty condTInf = .error .InvalidStateVariableValue
    ∧ evaluate ops0 "T" pfEmpty condTZero = .error .InvalidStateVariableValue :=
  ⟨(guard_rejects_nan_inf_zero ops0 pfEmpty condTNaN).1 (by decide),
   (guard_rejects_nan_inf_zero ops0 pfEmpty condTInf).2.1 (by decide),
   (guard_rejects_nan_inf_zero ops0 pfEmpty condTZero).2.2 (by decide)⟩

/-- Helper: a successful lookup key occurs among the table's keys. -/
theorem lookup_isSome_mem : ∀ (t : MTable) (x : String),
    (List.lookup x t).isSome = true → x ∈ t.map Prod.fst
  | [], x, h => by simp [List.lookup] at h
  | (a, b) :: t, x, h => by
      by_cases hx : x = a
      · simp [hx]
      · have hbeq : (x == a) = false := by simp [hx]
        rw [List.lookup, hbeq] at h
        simp only [List.map_cons, List.mem_cons]
        exact Or.inr (lookup_isSome_mem t x h)

/-- Direct macro references always point into the table's key set. -/
theorem refsOf_subset_keys (t : MTable) (a : String) :
    ∀ x ∈ refsOf t a, x ∈ keysOf t := by
  intro x hx
  rw [refsOf] at hx
  cases hl : List.lookup a t with
  | none => rw [hl] at hx; simp at hx
  | some text =>
      rw [hl] at hx
      have hx2 := (List.mem_filter.1 hx).2
      rw [keysOf, List.mem_toFinset]
      exact lookup_isSome_mem t x hx2

/-- A set is contained in its saturation step. -/
theorem subset_stepSet (t : MTable) (s : Finset String) : s ⊆ stepSet t s :=
  Finset.subset_union_left

/-- The saturation step stays inside the key set. -/
theorem stepSet_subset_keys (t : MTable) (s : Finset String) (h : s ⊆ keysOf t) :
    stepSet t s ⊆ keysOf t := by
  rw [stepSet]
  refine Finset.union_subset h (Finset.biUnion_subset.2 ?_)
  intro m _ x hx
  exact refsOf_subset_keys t m x (List.mem_toFinset.1 hx)

/-- Each saturation iterate is contained in the next. -/
theorem iter_subset_succ (t : MTable) (s0 : Finset String) (k : ℕ) :
    (stepSet t)^[k] s0 ⊆ (stepSet t)^[k + 1] s0 := by
  rw [Function.iterate_succ_apply']
  exact subset_stepSet t _

/-- Monotonicity of the saturation iterates in the iteration count. -/
theorem iter_mono_le (t : MTable) (s0 : Finset String) {j k : ℕ} (h : j ≤ k) :
    (stepSet t)^[j] s0 ⊆ (stepSet t)^[k] s0 := by
  induction h with
  | refl => exact subset_rfl
  | step hmn ih => exact ih.trans (iter_subset_succ t s0 _)

/-- All saturation iterates stay inside the key set. -/
theorem iter_subset_keys (t : MTable) (s0 : Finset String) (h0 : s0 ⊆ keysOf t) (k : ℕ) :
    (stepSet t)^[k] s0 ⊆ keysOf t := by
  induction k with
  | zero => simpa using h0
  | succ m ih =>
      rw [Function.iterate_succ_apply']
      exact stepSet_subset_keys t _ ih

/-- Within `t.length` iterations the saturation reaches a step where
nothing is added: otherwise the sets would grow strictly beyond the key
set's cardinality. -/
theorem iter_stabilizes (t : MTable) (s0 : Finset String) (h0 : s0 ⊆ keysOf t) :
    ∃ k ≤ t.length, (stepSet t)^[k + 1] s0 = (stepSet t)^[k] s0 := by
  by_contra hcon
  push_neg at hcon
  have hstrict : ∀ k, k ≤ t.length + 1 → k + s0.card ≤ ((stepSet t)^[k] s0).card := by
    intro k
    induction k with
    | zero => intro _; simp
    | succ m ihm =>
        intro hk
        have hm : m ≤ t.length := by omega
        have hne : (stepSet t)^[m + 1] s0 ≠ (stepSet t)^[m] s0 := hcon m hm
        have hss : (stepSet t)^[m] s0 ⊂ (stepSet t)^[m + 1] s0 :=
          lt_iff_le_and_ne.2 ⟨iter_subset_succ t s0 m, Ne.symm hne⟩
        have hcard := Finset.card_lt_card hss
        have := ihm (by omega)
        omega
  have hbig := hstrict (t.length + 1) (le_refl _)
  have hsub := iter_subset_keys t s0 h0 (t.length + 1)
  have hcard1 := Finset.card_le_card hsub
  have hcard2 : (keysOf t).card ≤ t.length := by
    rw [keysOf]
    calc (t.map Prod.fst).toFinset.card ≤ (t.map Prod.fst).length :=
          List.toFinset_card_le _
      _ = t.length := List.length_map _ _
  omega

/-- Once one saturation step adds nothing, all later iterates are equal. -/
theorem iter_fixed_from (t : MTable) (s0 : Finset String) (k : ℕ)
    (hfix : (stepSet t)^[k + 1] s0 = (stepSet t)^[k] s0) :
    ∀ j, k ≤ j → (stepSet t)^[j] s0 = (stepSet t)^[k] s0 := by
  intro j hj
  induction hj with
  | refl => rfl
  | step hmn ih =>
      rw [Function.iterate_succ_apply', ih,
        ← Function.iterate_succ_apply' (stepSet t) k s0, hfix]

/-- The computed reachable set is a fixed point of the saturation step. -/
theorem reachableFrom_fixed (t : MTable) (n : String) :
    stepSet t (reachableFrom t n) = reachableFrom t n := by
  have h0 : (refsOf t n).toFinset ⊆ keysOf t := by
    intro x hx
    exact refsOf_subset_keys t n x (List.mem_toFinset.1 hx)
  obtain ⟨k, hk, hfix⟩ := iter_stabilizes t (refsOf t n).toFinset h0
  have h1 : reachableFrom t n = (stepSet t)^[k] (refsOf t n).toFinset := by
    rw [reachableFrom]
    exact iter_fixed_from t _ k hfix (t.length + 1) (by omega)
  rw [h1, ← Function.iterate_succ_apply' (stepSet t) k ((refsOf t n).toFinset)]
  exact hfix

/-- A fixed point of the saturation step is closed under direct
references. -/
theorem fixed_closed (t : MTable) (s : Finset String) (hfix : stepSet t s = s) :
    ∀ m ∈ s, ∀ x ∈ refsOf t m, x ∈ s := by
  intro m hm x hx
  have hmem : x ∈ stepSet t s := by
    rw [stepSet]
    exact Finset.mem_union.2 (Or.inr (Finset.mem_biUnion.2 ⟨m, hm, List.mem_toFinset.2 hx⟩))
  rwa [hfix] at hmem

/-- A reference-closed set that contains the direct references of `a`
absorbs everything `a` transitively reaches. -/
theorem reaches_mem_closed (t : MTable) (S : Finset String)
    (hcl : ∀ m ∈ S, ∀ x ∈ refsOf t m, x ∈ S) :
    ∀ a c, Reaches t a c → (∀ x ∈ refsOf t a, x ∈ S) → c ∈ S := by
  intro a c h
  induction h with
  | direct hb => intro ha; exact ha _ hb
  | step hb hr ih => intro ha; exact ih (fun x hx => hcl _ (ha _ hb) x hx)

/-- Completeness of the saturation: every transitively reachable name is
in the computed reachable set. -/
theorem mem_reachable_of_reaches (t : MTable) (n c : String) (h : Reaches t n c) :
    c ∈ reachableFrom t n := by
  have hfix := reachableFrom_fixed t n
  refine reaches_mem_closed t _ (fixed_closed t _ hfix) n c h ?_
  intro x hx
  have h0 : x ∈ (refsOf t n).toFinset := List.mem_toFinset.2 hx
  have hmono := iter_mono_le t (refsOf t n).toFinset (Nat.zero_le (t.length + 1))
  exact hmono (by simpa using h0)

/-- C7: macro cycle detection is eager.  `define` rejects, at definition
time, any macro whose full transitive expansion (over the table updated
with the new binding) would reference itself, failing with
`CyclicMacroReference`; concretely, defining `A -> B` succeeds on an empty
table and then defining `B -> A` is rejected at the `define` call itself,
not at a later resolution. -/
theorem define_rejects_cycles :
    (∀ (t : MTable) (n text : String), Reaches ((n, text) :: t) n n →
        defineMacro t n text = .error (.CyclicMacroReference n))
    ∧ defineMacro [] "A" "B" = .ok [("A", "B")]
    ∧ defineMacro [("A", "B")] "B" "A" = .error (.CyclicMacroReference "B") := by
  refine ⟨?_, ?_, ?_⟩
  · intro t n text hr
    have hmem := mem_reachable_of_reaches _ n n hr
    rw [defineMacro]
    rw [if_pos hmem]
  · with_unfolding_all rfl
  · with_unfolding_all rfl

/-- Witness for C7: the general rejection theorem applied to the concrete
`A -> B`, `B -> A` cycle. -/
theorem define_rejects_cycles_witness :
    defineMacro [("A", "B")] "B" "A" = .error (.CyclicMacroReference "B") :=
  define_rejects_cycles.1 [("A", "B")] "B" "A"
    (@Reaches.step [("B", "A"), ("A", "B")] "B" "A" "B" (by decide)
      (@Reaches.direct [("B", "A"), ("A", "B")] "A" "B" (by decide)))

/-- C10: `Phase::sublattices()` returns the sublattice collection by
value — a copy.  The call leaves the phase's own state unchanged; the
returned collection lives in a fresh cell distinct from the phase's own
and holds equal contents; and overwriting the returned copy afterwards
leaves the collection observed through the phase's sublattice iterators
and `sublattice_count()` unchanged. -/
theorem sublattices_returns_copy (st : SublStore) (p : PhaseObj) (v : List Sublattice)
    (hv : p.subls < st.length) :
    storeRead (PhaseObj.sublattices st p).1 p.subls = storeRead st p.subls
    ∧ (PhaseObj.sublattices st p).2 ≠ p.subls
    ∧ storeRead (PhaseObj.sublattices st p).1 (PhaseObj.sublattices st p).2
        = storeRead st p.subls
    ∧ storeRead
        (storeWrite (PhaseObj.sublattices st p).1 (PhaseObj.sublattices st p).2 v) p.subls
        = storeRead st p.subls
    ∧ PhaseObj.sublattice_count
        (storeWrite (PhaseObj.sublattices st p).1 (PhaseObj.sublattices st p).2 v) p
        = PhaseObj.sublattice_count st p := by
  have hne : st.length ≠ p.subls := (Nat.ne_of_lt hv).symm
  have hA : storeRead (PhaseObj.sublattices st p).1 p.subls = storeRead st p.subls := by
    simp only [PhaseObj.sublattices, storeRead, List.getD, List.get?_eq_getElem?]
    rw [List.getElem?_append_left hv]
  have hC : storeRead (PhaseObj.sublattices st p).1 (PhaseObj.sublattices st p).2
      = storeRead st p.subls := by
    simp only [PhaseObj.sublattices, storeRead, List.getD, List.get?_eq_getElem?]
    rw [List.getElem?_concat_length]
    rfl
  have hD : storeRead
      (storeWrite (PhaseObj.sublattices st p).1 (PhaseObj.sublattices st p).2 v) p.subls
      = storeRead st p.subls := by
    simp only [PhaseObj.sublattices, storeRead, storeWrite, List.getD,
      List.get?_eq_getElem?] at hA ⊢
    rw [List.getElem?_set_ne hne]
    exact hA
  refine ⟨hA, hne, hC, hD, ?_⟩
  simp only [PhaseObj.sublattice_count]
  rw [hD]

/-- Witness for C10 at a concrete one-cell store. -/
theorem sublattices_returns_copy_witness :
    storeRead (PhaseObj.sublattices [[⟨2, ["NI"]⟩]] ⟨"GAMMA", 0⟩).1 0
      = storeRead [[⟨2, ["NI"]⟩]] 0
    ∧ (PhaseObj.sublattices [[⟨2, ["NI"]⟩]] ⟨"GAMMA", 0⟩).2 ≠ 0
    ∧ storeRead (PhaseObj.sublattices [[⟨2, ["NI"]⟩]] ⟨"GAMMA", 0⟩).1
        (PhaseObj.sublattices [[⟨2, ["NI"]⟩]] ⟨"GAMMA", 0⟩).2
        = storeRead [[⟨2, ["NI"]⟩]] 0
    ∧ storeRead
        (storeWrite (PhaseObj.sublattices [[⟨2, ["NI"]⟩]] ⟨"GAMMA", 0⟩).1
          (PhaseObj.sublattices [[⟨2, ["NI"]⟩]] ⟨"GAMMA", 0⟩).2 []) 0
        = storeRead [[⟨2, ["NI"]⟩]] 0
    ∧ PhaseObj.sublattice_count
        (storeWrite (PhaseObj.sublattices [[⟨2, ["NI"]⟩]] ⟨"GAMMA", 0⟩).1
          (PhaseObj.sublattices [[⟨2, ["NI"]⟩]] ⟨"GAMMA", 0⟩).2 [])
        ⟨"GAMMA", 0⟩
        = PhaseObj.sublattice_count [[⟨2, ["NI"]⟩]] ⟨"GAMMA", 0⟩ :=
  sublattices_returns_copy [[⟨2, ["NI"]⟩]] ⟨"GAMMA", 0⟩ [] (by decide)

end Tdb
